import Mathlib

/-!
Verification of the batching subsystem of `VISinger/data_utils.py`:
the distributed bucket sampler (`DistributedBucketSampler`), the batch
collator (`TextAudioCollate`) and the truncation reconciliation of
`TextAudioLoader.get_audio_text_pair`, shallowly embedded as pure
Lean functions over lists of naturals / integers.
-/

namespace VISinger

/-! ### Deterministic generator model

`torch.Generator` seeded with `manual_seed(epoch)` is modelled as a `Nat`
state; `torch.randperm(n, generator=g)` is modelled as a deterministic
permutation of `List.range n` obtained by rotating it by the current state,
advancing the state with a linear congruential step.  Every claim below
depends only on the facts that the draw is a permutation of `range n` and
that it is a deterministic function of the state. -/

def lcg (s : Nat) : Nat := (s * 1103515245 + 12345) % 2147483648

def mkGen (epoch : Nat) : Nat := epoch

def randperm (n : Nat) (g : Nat) : List Nat × Nat :=
  ((List.range n).rotate g, lcg g)

/-- The loop `for bucket in buckets: indices.append(randperm(len(bucket), g))`,
threading the generator state. -/
def permsOf : List (List Nat) → Nat → List (List Nat) × Nat
  | [], g => ([], g)
  | b :: t, g =>
    let pr := randperm b.length g
    let rest := permsOf t pr.2
    (pr.1 :: rest.1, rest.2)

/-! ### List helpers mirroring Python primitives -/

/-- Python slice `l[start::step]` (for `step ≥ 1`): the elements at positions
`start, start + step, start + 2*step, …` while in range. -/
def sliceStride (l : List Nat) (start step : Nat) : List Nat :=
  (List.range ((l.length - start + step - 1) / step)).map
    (fun j => l.getD (start + j * step) 0)

/-- The positions of the padded list read by `sliceStride _ start step`. -/
def slicePos (total start step : Nat) : List Nat :=
  (List.range ((total - start + step - 1) / step)).map (fun j => start + j * step)

/-- Line 265 of the source:
`ids_bucket = ids_bucket + ids_bucket * (rem // len_bucket) + ids_bucket[:(rem % len_bucket)]`
with `rem = num_samples_bucket - len_bucket`. -/
def extendCyc (ids : List Nat) (lenBucket target : Nat) : List Nat :=
  let rem := target - lenBucket
  ids ++ ((List.replicate (rem / lenBucket) ids).flatten ++ ids.take (rem % lenBucket))

/-! ### `_bisect`

The recursive interval search of `DistributedBucketSampler._bisect`.  To keep
the function kernel-computable, the recursion is driven by an explicit fuel
counter; `bisect` supplies fuel `hi - lo + 1`, which theorem
`bisect_fuel_terminates` proves sufficient (the interval shrinks at every
recursive call). -/

def bisectF (bs : List Nat) (x : Nat) : Nat → Nat → Nat → Option Int
  | 0, _, _ => none
  | fuel + 1, lo, hi =>
    if lo < hi then
      let mid := (hi + lo) / 2
      if bs.getD mid 0 < x ∧ x ≤ bs.getD (mid + 1) 0 then some (mid : Int)
      else if x ≤ bs.getD mid 0 then bisectF bs x fuel lo mid
      else bisectF bs x fuel (mid + 1) hi
    else some (-1)

def bisect (bs : List Nat) (x : Nat) (lo hi : Nat) : Int :=
  (bisectF bs x (hi - lo + 1) lo hi).getD (-1)

/-- The top-level call `self._bisect(length)`, where `hi` defaults to
`len(self.boundaries) - 1`. -/
def topBisect (bs : List Nat) (x : Nat) : Int :=
  bisect bs x 0 (bs.length - 1)

/-! ### `DistributedBucketSampler` construction -/

structure SamplerCfg where
  lengths : List Nat
  batchSize : Nat
  boundaries : List Nat
  numReplicas : Nat
  rank : Nat
  shuffle : Bool

/-- The removal loop `for i in range(len(buckets) - 1, 0, -1)`: the counter
counts down from `len(buckets) - 1` and the loop body runs for counter values
`len(buckets) - 1, …, 1`, popping bucket `i` and boundary `i + 1` when bucket
`i` is empty. -/
def pruneLoop : Nat → List (List Nat) → List Nat → List (List Nat) × List Nat
  | 0, bks, bds => (bks, bds)
  | i + 1, bks, bds =>
    if (bks.getD (i + 1) []).length = 0 then
      pruneLoop i (bks.eraseIdx (i + 1)) (bds.eraseIdx (i + 2))
    else
      pruneLoop i bks bds

/-- `DistributedBucketSampler._create_buckets`: returns the surviving buckets,
`num_samples_per_bucket`, and the pruned boundary list. -/
def createBuckets (cfg : SamplerCfg) : List (List Nat) × List Nat × List Nat :=
  let filled := (List.range cfg.lengths.length).foldl
    (fun bks i =>
      let idx := topBisect cfg.boundaries (cfg.lengths.getD i 0)
      if idx ≠ -1 then bks.set idx.toNat (bks.getD idx.toNat [] ++ [i]) else bks)
    (List.replicate (cfg.boundaries.length - 1) [])
  let pruned := pruneLoop (filled.length - 1) filled cfg.boundaries
  let nspb := pruned.1.map (fun b =>
    let lenBucket := b.length
    let totalBatchSize := cfg.numReplicas * cfg.batchSize
    lenBucket + (totalBatchSize - lenBucket % totalBatchSize) % totalBatchSize)
  (pruned.1, nspb, pruned.2)

/-- `self.total_size = sum(self.num_samples_per_bucket)`. -/
def totalSize (cfg : SamplerCfg) : Nat := (createBuckets cfg).2.1.sum

/-- `self.num_samples = self.total_size // self.num_replicas`. -/
def numSamples (cfg : SamplerCfg) : Nat := totalSize cfg / cfg.numReplicas

/-! ### `DistributedBucketSampler.__iter__` -/

/-- The per-bucket batching loop: `for j in range(len(ids_bucket) // self.batch_size)`,
each batch being `[bucket[idx] for idx in ids_bucket[j*bs:(j+1)*bs]]`. -/
def bucketBatches (batchSize : Nat) (bucket sub : List Nat) : List (List Nat) :=
  (List.range (sub.length / batchSize)).map
    (fun j => ((sub.drop (j * batchSize)).take batchSize).map (fun idx => bucket.getD idx 0))

/-- Step 2 of iteration: one permutation (or identity order) per bucket. -/
def bucketPerms (cfg : SamplerCfg) (buckets : List (List Nat)) (g0 : Nat) :
    List (List Nat) × Nat :=
  if cfg.shuffle then permsOf buckets g0
  else (buckets.map (fun b => List.range b.length), g0)

/-- Steps 3–5 of iteration for all buckets: cyclic extension to the padded
count, rank subsampling, and batching, concatenated in bucket order. -/
def rawBatches (cfg : SamplerCfg) (buckets : List (List Nat)) (nspb : List Nat)
    (indices : List (List Nat)) : List (List Nat) :=
  ((List.range buckets.length).map (fun i =>
    bucketBatches cfg.batchSize (buckets.getD i [])
      (sliceStride
        (extendCyc (indices.getD i []) (buckets.getD i []).length (nspb.getD i 0))
        cfg.rank cfg.numReplicas))).flatten

/-- `__iter__` body, given the initial generator state. -/
def iterBatchesWith (cfg : SamplerCfg) (g0 : Nat) : List (List Nat) :=
  let cb := createBuckets cfg
  let ig := bucketPerms cfg cb.1 g0
  let batches := rawBatches cfg cb.1 cb.2.1 ig.1
  if cfg.shuffle then (randperm batches.length ig.2).1.map (fun i => batches.getD i [])
  else batches

/-- `__iter__` for a given epoch: the generator is freshly seeded from the
epoch at the start of every call (`g = torch.Generator(); g.manual_seed(self.epoch)`). -/
def iterBatches (cfg : SamplerCfg) (epoch : Nat) : List (List Nat) :=
  iterBatchesWith cfg (mkGen epoch)

/-! ### Lemmas about `_bisect` -/

theorem bisectF_succ_def (bs : List Nat) (x n lo hi : Nat) :
    bisectF bs x (n + 1) lo hi =
      if lo < hi then
        if bs.getD ((hi + lo) / 2) 0 < x ∧ x ≤ bs.getD ((hi + lo) / 2 + 1) 0 then
          some (((hi + lo) / 2 : Nat) : Int)
        else if x ≤ bs.getD ((hi + lo) / 2) 0 then bisectF bs x n lo ((hi + lo) / 2)
        else bisectF bs x n ((hi + lo) / 2 + 1) hi
      else some (-1) := rfl

theorem bisectF_stable_succ (bs : List Nat) (x : Nat) :
    ∀ n lo hi, hi - lo < n → bisectF bs x n lo hi = bisectF bs x (n + 1) lo hi := by
  intro n
  induction n with
  | zero => intro lo hi h; exact absurd h (by omega)
  | succ n ih =>
    intro lo hi h
    rw [bisectF_succ_def bs x n, bisectF_succ_def bs x (n + 1)]
    by_cases hlh : lo < hi
    · rw [if_pos hlh, if_pos hlh]
      by_cases h1 : bs.getD ((hi + lo) / 2) 0 < x ∧ x ≤ bs.getD ((hi + lo) / 2 + 1) 0
      · rw [if_pos h1, if_pos h1]
      · rw [if_neg h1, if_neg h1]
        by_cases h2 : x ≤ bs.getD ((hi + lo) / 2) 0
        · rw [if_pos h2, if_pos h2]
          exact ih lo ((hi + lo) / 2) (by omega)
        · rw [if_neg h2, if_neg h2]
          exact ih ((hi + lo) / 2 + 1) hi (by omega)
    · rw [if_neg hlh, if_neg hlh]

theorem bisectF_stable (bs : List Nat) (x : Nat) :
    ∀ m n lo hi, hi - lo < n → n ≤ m → bisectF bs x m lo hi = bisectF bs x n lo hi := by
  intro m
  induction m with
  | zero => intro n lo hi h hm; omega
  | succ m ih =>
    intro n lo hi h hm
    rcases Nat.eq_or_lt_of_le hm with rfl | hlt
    · rfl
    · have hnm : n ≤ m := by omega
      have hmeas : hi - lo < m := by omega
      rw [← bisectF_stable_succ bs x m lo hi hmeas]
      exact ih n lo hi h hnm

theorem bisectF_isSome (bs : List Nat) (x : Nat) :
    ∀ n lo hi, hi - lo < n → ∃ r, bisectF bs x n lo hi = some r := by
  intro n
  induction n with
  | zero => intro lo hi h; exact absurd h (by omega)
  | succ n ih =>
    intro lo hi h
    rw [bisectF_succ_def]
    by_cases hlh : lo < hi
    · rw [if_pos hlh]
      by_cases h1 : bs.getD ((hi + lo) / 2) 0 < x ∧ x ≤ bs.getD ((hi + lo) / 2 + 1) 0
      · rw [if_pos h1]; exact ⟨_, rfl⟩
      · rw [if_neg h1]
        by_cases h2 : x ≤ bs.getD ((hi + lo) / 2) 0
        · rw [if_pos h2]
          exact ih lo ((hi + lo) / 2) (by omega)
        · rw [if_neg h2]
          exact ih ((hi + lo) / 2 + 1) hi (by omega)
    · rw [if_neg hlh]; exact ⟨-1, rfl⟩

theorem bisectF_sound (bs : List Nat) (x : Nat) :
    ∀ n lo hi r, bisectF bs x n lo hi = some r →
      r = -1 ∨ ∃ i : Nat, r = (i : Int) ∧ lo ≤ i ∧ i + 1 ≤ hi ∧
        bs.getD i 0 < x ∧ x ≤ bs.getD (i + 1) 0 := by
  intro n
  induction n with
  | zero => intro lo hi r h; simp [bisectF] at h
  | succ n ih =>
    intro lo hi r h
    rw [bisectF_succ_def] at h
    by_cases hlh : lo < hi
    · rw [if_pos hlh] at h
      by_cases h1 : bs.getD ((hi + lo) / 2) 0 < x ∧ x ≤ bs.getD ((hi + lo) / 2 + 1) 0
      · rw [if_pos h1] at h
        have hr : r = (((hi + lo) / 2 : Nat) : Int) := (Option.some.inj h).symm
        exact Or.inr ⟨(hi + lo) / 2, hr, by omega, by omega, h1.1, h1.2⟩
      · rw [if_neg h1] at h
        by_cases h2 : x ≤ bs.getD ((hi + lo) / 2) 0
        · rw [if_pos h2] at h
          rcases ih lo ((hi + lo) / 2) r h with hneg | ⟨i, hi1, hi2, hi3, hi4, hi5⟩
          · exact Or.inl hneg
          · exact Or.inr ⟨i, hi1, hi2, by omega, hi4, hi5⟩
        · rw [if_neg h2] at h
          rcases ih ((hi + lo) / 2 + 1) hi r h with hneg | ⟨i, hi1, hi2, hi3, hi4, hi5⟩
          · exact Or.inl hneg
          · exact Or.inr ⟨i, hi1, by omega, hi3, hi4, hi5⟩
    · rw [if_neg hlh] at h
      exact Or.inl (Option.some.inj h).symm

theorem bisectF_complete (bs : List Nat) (x : Nat) :
    ∀ n lo hi, hi - lo < n → lo ≤ hi → hi < bs.length →
      bs.getD lo 0 < x → x ≤ bs.getD hi 0 →
      bisectF bs x n lo hi ≠ some (-1) := by
  intro n
  induction n with
  | zero => intro lo hi h; omega
  | succ n ih =>
    intro lo hi h hle hhi hxlo hxhi
    rw [bisectF_succ_def]
    by_cases hlh : lo < hi
    · rw [if_pos hlh]
      by_cases h1 : bs.getD ((hi + lo) / 2) 0 < x ∧ x ≤ bs.getD ((hi + lo) / 2 + 1) 0
      · rw [if_pos h1]
        intro hcon
        have : (((hi + lo) / 2 : Nat) : Int) = -1 := Option.some.inj hcon
        omega
      · rw [if_neg h1]
        by_cases h2 : x ≤ bs.getD ((hi + lo) / 2) 0
        · rw [if_pos h2]
          exact ih lo ((hi + lo) / 2) (by omega) (by omega) (by omega) hxlo h2
        · rw [if_neg h2]
          have hmids : bs.getD ((hi + lo) / 2 + 1) 0 < x := by
            rcases Nat.lt_or_ge (bs.getD ((hi + lo) / 2 + 1) 0) x with hc | hc
            · exact hc
            · exact absurd ⟨by omega, hc⟩ h1
          exact ih ((hi + lo) / 2 + 1) hi (by omega) (by omega) hhi hmids hxhi
    · have heq : lo = hi := by omega
      subst heq
      exfalso
      omega

theorem sorted_getD_le (bs : List Nat) (hs : List.Sorted (· ≤ ·) bs) {i j : Nat}
    (hij : i ≤ j) (hj : j < bs.length) : bs.getD i 0 ≤ bs.getD j 0 := by
  rcases Nat.eq_or_lt_of_le hij with rfl | hlt
  · exact le_refl _
  · have hg := List.pairwise_iff_getElem.mp hs i j (by omega) hj hlt
    rwa [List.getD_eq_getElem bs 0 (by omega), List.getD_eq_getElem bs 0 hj]

/-- C4: for an ascending boundary list of size ≥ 2, `_bisect` (with its
default bounds) returns `i` exactly when `boundaries[i] < x ≤ boundaries[i+1]`,
and returns the sentinel `-1` exactly when `x ≤ boundaries[0]` or
`x > boundaries[-1]`. -/
theorem bisect_interval (bs : List Nat) (x : Nat)
    (hs : List.Sorted (· ≤ ·) bs) (h2 : 2 ≤ bs.length) :
    (∀ i : Nat, topBisect bs x = (i : Int) ↔
      (i + 1 < bs.length ∧ bs.getD i 0 < x ∧ x ≤ bs.getD (i + 1) 0))
    ∧ (topBisect bs x = -1 ↔ (x ≤ bs.getD 0 0 ∨ bs.getD (bs.length - 1) 0 < x)) := by
  have hfuel : bs.length - 1 - 0 < bs.length - 1 - 0 + 1 := by omega
  obtain ⟨r, hr⟩ := bisectF_isSome bs x (bs.length - 1 - 0 + 1) 0 (bs.length - 1) hfuel
  have htop : topBisect bs x = r := by
    simp only [topBisect, bisect, hr, Option.getD_some]
  have hsound := bisectF_sound bs x _ 0 (bs.length - 1) r hr
  constructor
  · intro i
    constructor
    · intro hti
      rw [htop] at hti
      subst hti
      rcases hsound with hneg | ⟨i', hi1, _, hi3, hi4, hi5⟩
      · omega
      · have : i = i' := by omega
        subst this
        exact ⟨by omega, hi4, hi5⟩
    · rintro ⟨hilen, hlo, hhi⟩
      have hne : bisectF bs x (bs.length - 1 - 0 + 1) 0 (bs.length - 1) ≠ some (-1) := by
        apply bisectF_complete bs x _ 0 (bs.length - 1) hfuel (by omega) (by omega)
        · exact lt_of_le_of_lt (sorted_getD_le bs hs (Nat.zero_le i) (by omega)) hlo
        · exact le_trans hhi (sorted_getD_le bs hs (by omega) (by omega))
      rcases hsound with hneg | ⟨i', hi1, _, hi3, hi4, hi5⟩
      · rw [hneg] at hr; exact absurd hr hne
      · -- uniqueness: the valid interval index is unique on an ascending list
        rw [htop, hi1]
        have hii : i = i' := by
          by_contra hne'
          rcases Nat.lt_or_ge i i' with hlt | hge
          · have : bs.getD (i + 1) 0 ≤ bs.getD i' 0 :=
              sorted_getD_le bs hs (by omega) (by omega)
            omega
          · have hlt : i' < i := by omega
            have : bs.getD (i' + 1) 0 ≤ bs.getD i 0 :=
              sorted_getD_le bs hs (by omega) (by omega)
            omega
        rw [hii]
  · constructor
    · intro hneg
      by_contra hcon
      push_neg at hcon
      have hne : bisectF bs x (bs.length - 1 - 0 + 1) 0 (bs.length - 1) ≠ some (-1) :=
        bisectF_complete bs x _ 0 (bs.length - 1) hfuel (by omega) (by omega)
          hcon.1 hcon.2
      have hrneg : r = -1 := htop.symm.trans hneg
      exact hne (by rw [hr, hrneg])
    · intro hout
      rcases hsound with hneg | ⟨i', hi1, _, hi3, hi4, hi5⟩
      · rw [htop, hneg]
      · exfalso
        rcases hout with hlow | hhigh
        · have : bs.getD 0 0 ≤ bs.getD i' 0 :=
            sorted_getD_le bs hs (Nat.zero_le i') (by omega)
          omega
        · have : bs.getD (i' + 1) 0 ≤ bs.getD (bs.length - 1) 0 :=
            sorted_getD_le bs hs (by omega) (by omega)
          omega

/-- C4 witness: boundaries `[0,10,20]`, sample length 15 lands in bucket 1. -/
theorem bisect_interval_witness :
    (List.Sorted (· ≤ ·) ([0, 10, 20] : List Nat) ∧ 2 ≤ ([0, 10, 20] : List Nat).length)
    ∧ topBisect [0, 10, 20] 15 = 1
    ∧ (topBisect [0, 10, 20] 15 = (1 : Int) ↔
        (1 + 1 < ([0, 10, 20] : List Nat).length ∧
          ([0, 10, 20] : List Nat).getD 1 0 < 15 ∧ 15 ≤ ([0, 10, 20] : List Nat).getD 2 0)) :=
  ⟨⟨by decide, by decide⟩, by decide,
    (bisect_interval [0, 10, 20] 15 (by decide) (by decide)).1 1⟩

/-- C9: the recursion of `_bisect` terminates: fuel exceeding the interval
size `hi - lo` is sufficient, every run with such fuel returns the value of
the total function `bisect`. -/
theorem bisect_fuel_terminates (bs : List Nat) (x : Nat) (lo hi n : Nat)
    (h : hi - lo < n) : bisectF bs x n lo hi = some (bisect bs x lo hi) := by
  obtain ⟨r, hr⟩ := bisectF_isSome bs x (hi - lo + 1) lo hi (by omega)
  have hstable := bisectF_stable bs x n (hi - lo + 1) lo hi (by omega) (by omega)
  rw [hstable, hr]
  simp only [bisect, hr, Option.getD_some]

/-- C9 witness: fuel 3 suffices for bounds `(0, 2)`. -/
theorem bisect_fuel_terminates_witness :
    (2 - 0 < 3) ∧ bisectF [0, 10, 20] 15 3 0 2 = some (bisect [0, 10, 20] 15 0 2) :=
  ⟨by omega, bisect_fuel_terminates [0, 10, 20] 15 0 2 3 (by omega)⟩

/-! ### Generic `getD` helpers -/

theorem getD_map_of_lt {α β : Type} (f : α → β) (l : List α) (i : Nat) (d : β) (d' : α)
    (h : i < l.length) : (l.map f).getD i d = f (l.getD i d') := by
  induction l generalizing i with
  | nil => simp at h
  | cons a t ih =>
    cases i with
    | zero => rfl
    | succ j => simpa using ih j (by simpa using h)

theorem getD_mem_of_lt {α : Type} (l : List α) (i : Nat) (d : α) (h : i < l.length) :
    l.getD i d ∈ l := by
  induction l generalizing i with
  | nil => simp at h
  | cons a t ih =>
    cases i with
    | zero => exact List.mem_cons_self a t
    | succ j => exact List.mem_cons_of_mem a (ih j (by simpa using h))

/-! ### C3: empty-bucket pruning at construction -/

/-- The failing configuration of C3: boundaries `[0, 10, 20, 30]` and every
sample length in `(10, 20]`. -/
def c3cfg : SamplerCfg :=
  { lengths := [15, 12], batchSize := 2, boundaries := [0, 10, 20, 30],
    numReplicas := 1, rank := 0, shuffle := true }

/-- C3 evaluated on the failing input: the trailing boundary pair is removed
(`boundaries` becomes `[0, 10, 20]`), but the empty first bucket survives the
removal loop (`for i in range(len(buckets) - 1, 0, -1)` never reaches index 0),
so construction yields two buckets, the first one empty — not exactly one. -/
theorem prune_keeps_empty_first_bucket :
    createBuckets c3cfg = ([[], [0, 1]], [0, 2], [0, 10, 20])
    ∧ (createBuckets c3cfg).1.length ≠ 1
    ∧ [] ∈ (createBuckets c3cfg).1 := by decide

/-! ### C5: the padded-count formula -/

theorem createBuckets_nspb (cfg : SamplerCfg) :
    (createBuckets cfg).2.1 = (createBuckets cfg).1.map (fun b =>
      b.length + (cfg.numReplicas * cfg.batchSize -
        b.length % (cfg.numReplicas * cfg.batchSize)) % (cfg.numReplicas * cfg.batchSize)) :=
  rfl

/-- C5: each surviving bucket's padded count equals
`len + ((R*B - len % (R*B)) % (R*B))`; when `len` is already a multiple of
`R*B` the padded count equals `len`. -/
theorem padded_count_formula (cfg : SamplerCfg) (i : Nat)
    (h : i < (createBuckets cfg).1.length) :
    (createBuckets cfg).2.1.getD i 0 =
      ((createBuckets cfg).1.getD i []).length +
        (cfg.numReplicas * cfg.batchSize -
          ((createBuckets cfg).1.getD i []).length % (cfg.numReplicas * cfg.batchSize)) %
          (cfg.numReplicas * cfg.batchSize)
    ∧ (((createBuckets cfg).1.getD i []).length % (cfg.numReplicas * cfg.batchSize) = 0 →
        (createBuckets cfg).2.1.getD i 0 = ((createBuckets cfg).1.getD i []).length) := by
  have hform : (createBuckets cfg).2.1.getD i 0 =
      ((createBuckets cfg).1.getD i []).length +
        (cfg.numReplicas * cfg.batchSize -
          ((createBuckets cfg).1.getD i []).length % (cfg.numReplicas * cfg.batchSize)) %
          (cfg.numReplicas * cfg.batchSize) := by
    rw [createBuckets_nspb]
    exact getD_map_of_lt _ _ i 0 [] h
  refine ⟨hform, fun h0 => ?_⟩
  rw [hform, h0, Nat.sub_zero, Nat.mod_self, Nat.add_zero]

/-- C5 witness: at index 1 of the surviving buckets of `c3cfg`
(bucket `[0, 1]`, `R*B = 2`), the padded count is 2 = `len`. -/
theorem padded_count_formula_witness :
    (1 < (createBuckets c3cfg).1.length)
    ∧ (createBuckets c3cfg).2.1.getD 1 0 =
        ((createBuckets c3cfg).1.getD 1 []).length +
          (c3cfg.numReplicas * c3cfg.batchSize -
            ((createBuckets c3cfg).1.getD 1 []).length %
              (c3cfg.numReplicas * c3cfg.batchSize)) %
            (c3cfg.numReplicas * c3cfg.batchSize)
    ∧ (createBuckets c3cfg).2.1.getD 1 0 = ((createBuckets c3cfg).1.getD 1 []).length :=
  ⟨by decide, (padded_count_formula c3cfg 1 (by decide)).1,
    (padded_count_formula c3cfg 1 (by decide)).2 (by decide)⟩

/-! ### C1: determinism of iteration in the epoch -/

/-- A small sample configuration used by several witnesses. -/
def sampleCfg : SamplerCfg :=
  { lengths := [5, 12, 15, 7], batchSize := 2, boundaries := [0, 10, 20],
    numReplicas := 1, rank := 0, shuffle := true }

/-- C1: the batch sequence is a function of the configuration and the epoch
alone — the generator is freshly seeded from the epoch on every call, so two
iterations at the same epoch produce identical, element-wise-equal batch
sequences. -/
theorem iter_deterministic (cfg : SamplerCfg) (e₁ e₂ : Nat) (h : e₁ = e₂) :
    (iterBatches cfg e₁).length = (iterBatches cfg e₂).length
    ∧ ∀ i, (iterBatches cfg e₁).getD i [] = (iterBatches cfg e₂).getD i [] := by
  subst h
  exact ⟨rfl, fun _ => rfl⟩

/-- C1 witness: two calls at epoch 3 agree on `sampleCfg`. -/
theorem iter_deterministic_witness :
    (3 = 3)
    ∧ (iterBatches sampleCfg 3).length = (iterBatches sampleCfg 3).length
    ∧ (iterBatches sampleCfg 3).getD 0 [] = (iterBatches sampleCfg 3).getD 0 [] :=
  ⟨rfl, (iter_deterministic sampleCfg 3 3 rfl).1, (iter_deterministic sampleCfg 3 3 rfl).2 0⟩

/-! ### C10: with shuffling disabled the epoch is irrelevant -/

/-- C10: when `shuffle` is false, no generator draw happens: buckets are
traversed in identity order, the batch order is not permuted, and the batch
sequence is the same for every epoch. -/
theorem noshuffle_ignores_epoch (cfg : SamplerCfg) (h : cfg.shuffle = false)
    (e₁ e₂ : Nat) :
    iterBatches cfg e₁ = iterBatches cfg e₂
    ∧ iterBatches cfg e₁ =
        rawBatches cfg (createBuckets cfg).1 (createBuckets cfg).2.1
          ((createBuckets cfg).1.map (fun b => List.range b.length)) := by
  constructor
  · simp [iterBatches, iterBatchesWith, bucketPerms, h]
  · simp [iterBatches, iterBatchesWith, bucketPerms, h]

/-- C10 witness: `sampleCfg` with shuffling disabled at epochs 0 and 7. -/
theorem noshuffle_ignores_epoch_witness :
    ({ sampleCfg with shuffle := false }.shuffle = false)
    ∧ iterBatches { sampleCfg with shuffle := false } 0 =
        iterBatches { sampleCfg with shuffle := false } 7 :=
  ⟨rfl, (noshuffle_ignores_epoch { sampleCfg with shuffle := false } rfl 0 7).1⟩

/-! ### C6: cyclic extension and the rank partition -/

theorem getD_take_of_lt {α : Type} (l : List α) (n i : Nat) (d : α) (h : i < n) :
    (l.take n).getD i d = l.getD i d := by
  rw [List.getD_eq_getElem?_getD, List.getElem?_take, if_pos h, ← List.getD_eq_getElem?_getD]

theorem length_flatten_replicate {α : Type} (k : Nat) (l : List α) :
    ((List.replicate k l).flatten).length = k * l.length := by
  simp [List.length_flatten]

theorem getD_flatten_replicate (k : Nat) (l : List Nat) (m : Nat) (h : m < k * l.length) :
    ((List.replicate k l).flatten).getD m 0 = l.getD (m % l.length) 0 := by
  induction k generalizing m with
  | zero => omega
  | succ j ih =>
    rw [List.replicate_succ, List.flatten_cons]
    by_cases hm : m < l.length
    · rw [List.getD_append _ _ 0 m hm, Nat.mod_eq_of_lt hm]
    · have hlen : l.length ≤ m := by omega
      rw [List.getD_append_right _ _ 0 m hlen]
      have hm' : m - l.length < j * l.length := by
        have hpos : 0 < l.length := by
          rcases Nat.eq_zero_or_pos l.length with h0 | h0
          · rw [h0] at h; omega
          · exact h0
        have hsm : (j + 1) * l.length = j * l.length + l.length := by ring
        omega
      rw [ih (m - l.length) hm']
      congr 1
      have hsplit : m = (m - l.length) + l.length := by omega
      calc (m - l.length) % l.length
          = ((m - l.length) + l.length) % l.length := (Nat.add_mod_right _ _).symm
        _ = m % l.length := by rw [← hsplit]

theorem extendCyc_length (ids : List Nat) (lb target : Nat)
    (hids : ids.length = lb) (hlb : 1 ≤ lb) (hle : lb ≤ target) :
    (extendCyc ids lb target).length = target := by
  have hmod : (target - lb) % lb < lb := Nat.mod_lt _ (by omega)
  have hdm := Nat.div_add_mod (target - lb) lb
  have hcomm : ((target - lb) / lb) * lb = lb * ((target - lb) / lb) := Nat.mul_comm _ _
  simp only [extendCyc, List.length_append, length_flatten_replicate, List.length_take, hids]
  rw [Nat.min_eq_left (le_of_lt hmod)]
  omega

theorem extendCyc_getD (ids : List Nat) (lb target : Nat)
    (hids : ids.length = lb) (hlb : 1 ≤ lb) (hle : lb ≤ target)
    (k : Nat) (hk : k < target) :
    (extendCyc ids lb target).getD k 0 = ids.getD (k % lb) 0 := by
  have hdm := Nat.div_add_mod (target - lb) lb
  have hmod : (target - lb) % lb < lb := Nat.mod_lt _ (by omega)
  have hcomm : ((target - lb) / lb) * lb = lb * ((target - lb) / lb) := Nat.mul_comm _ _
  have hsm : ((target - lb) / lb + 1) * lb = ((target - lb) / lb) * lb + lb := by ring
  have hflat : ((List.replicate ((target - lb) / lb) ids).flatten).length =
      ((target - lb) / lb) * lb := by
    rw [length_flatten_replicate, hids]
  simp only [extendCyc]
  by_cases hk1 : k < lb
  · rw [List.getD_append _ _ 0 k (by omega), Nat.mod_eq_of_lt hk1]
  · rw [List.getD_append_right _ _ 0 k (by omega), hids]
    by_cases hk2 : k - lb < ((target - lb) / lb) * lb
    · rw [List.getD_append _ _ 0 (k - lb) (by omega)]
      rw [getD_flatten_replicate _ _ _ (by rw [hids]; omega)]
      rw [hids]
      congr 1
      have hsplit : k = (k - lb) + lb := by omega
      calc (k - lb) % lb
          = ((k - lb) + lb) % lb := (Nat.add_mod_right _ _).symm
        _ = k % lb := by rw [← hsplit]
    · rw [List.getD_append_right _ _ 0 (k - lb) (by omega)]
      rw [hflat]
      have hp : k - lb - ((target - lb) / lb) * lb < (target - lb) % lb := by omega
      rw [getD_take_of_lt _ _ _ 0 hp]
      congr 1
      have hq : k = (k - lb - ((target - lb) / lb) * lb) + ((target - lb) / lb + 1) * lb := by
        omega
      have hmm : ((k - lb - ((target - lb) / lb) * lb) + ((target - lb) / lb + 1) * lb) % lb =
          (k - lb - ((target - lb) / lb) * lb) % lb := Nat.add_mul_mod_self_right _ _ _
      rw [← hq] at hmm
      rw [hmm, Nat.mod_eq_of_lt (by omega)]

theorem sliceStride_eq_map_pos (l : List Nat) (start step : Nat) :
    sliceStride l start step = (slicePos l.length start step).map (fun k => l.getD k 0) := by
  simp [sliceStride, slicePos, List.map_map, Function.comp]

theorem mem_slicePos (total start step k : Nat) (hstep : 1 ≤ step) (hstart : start < step) :
    k ∈ slicePos total start step ↔ (k % step = start ∧ k < total) := by
  simp only [slicePos, List.mem_map, List.mem_range]
  constructor
  · rintro ⟨j, hj, rfl⟩
    have hj1 : j + 1 ≤ (total - start + step - 1) / step := hj
    have hj' := (Nat.le_div_iff_mul_le hstep).mp hj1
    have hsm : (j + 1) * step = j * step + step := by ring
    refine ⟨?_, by omega⟩
    rw [Nat.add_mul_mod_self_right, Nat.mod_eq_of_lt hstart]
  · rintro ⟨hmod, hlt⟩
    refine ⟨k / step, ?_, ?_⟩
    · rw [Nat.lt_iff_add_one_le, Nat.le_div_iff_mul_le hstep]
      have hdm := Nat.div_add_mod k step
      have hcomm : (k / step) * step = step * (k / step) := Nat.mul_comm _ _
      have hsm : (k / step + 1) * step = (k / step) * step + step := by ring
      omega
    · have hdm := Nat.div_add_mod k step
      have hcomm : (k / step) * step = step * (k / step) := Nat.mul_comm _ _
      omega

theorem slicePos_pairwise_disjoint (total step r₁ r₂ : Nat) (hstep : 1 ≤ step)
    (h1 : r₁ < step) (h2 : r₂ < step) (hne : r₁ ≠ r₂) :
    List.Disjoint (slicePos total r₁ step) (slicePos total r₂ step) := by
  intro k hk1 hk2
  rw [mem_slicePos total r₁ step k hstep h1] at hk1
  rw [mem_slicePos total r₂ step k hstep h2] at hk2
  exact hne (hk1.1.symm.trans hk2.1)

theorem slicePos_biUnion (total step : Nat) (hstep : 1 ≤ step) :
    (Finset.range step).biUnion (fun r => (slicePos total r step).toFinset) =
      Finset.range total := by
  ext k
  simp only [Finset.mem_biUnion, Finset.mem_range, List.mem_toFinset]
  constructor
  · rintro ⟨r, hr, hk⟩
    exact ((mem_slicePos total r step k hstep hr).mp hk).2
  · intro hk
    refine ⟨k % step, Nat.mod_lt _ (by omega), ?_⟩
    rw [mem_slicePos total (k % step) step k hstep (Nat.mod_lt _ (by omega))]
    exact ⟨rfl, hk⟩

/-- C6: for a non-empty bucket, the cyclic extension of the bucket's
permuted index list to the padded count has exactly `padded_count` elements,
each equal to the permutation entry at its position modulo the bucket size,
and the rank slices `ids[rank::replica_count]` read pairwise-disjoint sets of
positions whose union is the whole padded range. -/
theorem extend_subsample_partition (ids : List Nat) (lb target num : Nat)
    (hids : ids.length = lb) (hlb : 1 ≤ lb) (hnum : 1 ≤ num) (hle : lb ≤ target) :
    (extendCyc ids lb target).length = target
    ∧ (∀ k, k < target → (extendCyc ids lb target).getD k 0 = ids.getD (k % lb) 0)
    ∧ (∀ r, r < num → sliceStride (extendCyc ids lb target) r num =
        (slicePos target r num).map (fun k => (extendCyc ids lb target).getD k 0))
    ∧ (∀ r₁ r₂, r₁ < num → r₂ < num → r₁ ≠ r₂ →
        List.Disjoint (slicePos target r₁ num) (slicePos target r₂ num))
    ∧ (Finset.range num).biUnion (fun r => (slicePos target r num).toFinset) =
        Finset.range target := by
  have hlen := extendCyc_length ids lb target hids hlb hle
  refine ⟨hlen, fun k hk => extendCyc_getD ids lb target hids hlb hle k hk,
    fun r _ => ?_, fun r₁ r₂ h1 h2 hne =>
      slicePos_pairwise_disjoint target num r₁ r₂ hnum h1 h2 hne,
    slicePos_biUnion target num hnum⟩
  rw [sliceStride_eq_map_pos, hlen]

/-- C6 witness: permutation `[1, 0, 2]` of a 3-element bucket padded to 6,
two replicas. -/
theorem extend_subsample_partition_witness :
    (([1, 0, 2] : List Nat).length = 3 ∧ 1 ≤ 3 ∧ 1 ≤ 2 ∧ 3 ≤ 6)
    ∧ (extendCyc [1, 0, 2] 3 6).length = 6
    ∧ sliceStride (extendCyc [1, 0, 2] 3 6) 1 2 =
        (slicePos 6 1 2).map (fun k => (extendCyc [1, 0, 2] 3 6).getD k 0)
    ∧ (extendCyc [1, 0, 2] 3 6).getD 4 0 = ([1, 0, 2] : List Nat).getD (4 % 3) 0 :=
  ⟨⟨by decide, by decide, by decide, by decide⟩,
    (extend_subsample_partition [1, 0, 2] 3 6 2 (by decide) (by decide) (by decide) (by decide)).1,
    (extend_subsample_partition [1, 0, 2] 3 6 2 (by decide) (by decide) (by decide) (by decide)).2.2.1
      1 (by decide),
    (extend_subsample_partition [1, 0, 2] 3 6 2 (by decide) (by decide) (by decide) (by decide)).2.1
      4 (by decide)⟩

/-! ### C2: counting batches -/

theorem randperm_length (n g : Nat) : (randperm n g).1.length = n := by
  simp [randperm]

theorem permsOf_fst_length (bks : List (List Nat)) (g : Nat) :
    (permsOf bks g).1.length = bks.length := by
  induction bks generalizing g with
  | nil => rfl
  | cons b t ih => simp [permsOf, ih]

theorem permsOf_getD_length (bks : List (List Nat)) (g i : Nat) (h : i < bks.length) :
    ((permsOf bks g).1.getD i []).length = (bks.getD i []).length := by
  induction bks generalizing g i with
  | nil => simp at h
  | cons b t ih =>
    cases i with
    | zero => simp [permsOf, randperm_length]
    | succ j =>
      simp only [permsOf, List.getD_cons_succ]
      exact ih _ j (by simpa using h)

theorem bucketPerms_getD_length (cfg : SamplerCfg) (buckets : List (List Nat)) (g i : Nat)
    (h : i < buckets.length) :
    ((bucketPerms cfg buckets g).1.getD i []).length = (buckets.getD i []).length := by
  by_cases hs : cfg.shuffle
  · simp only [bucketPerms]
    rw [if_pos hs]
    exact permsOf_getD_length buckets g i h
  · simp only [bucketPerms]
    rw [if_neg hs]
    rw [getD_map_of_lt _ buckets i [] [] h, List.length_range]

theorem pad_dvd (T lb : Nat) (hT : 0 < T) : T ∣ lb + (T - lb % T) % T := by
  rcases Nat.eq_zero_or_pos (lb % T) with h0 | h0
  · have : (T - lb % T) % T = 0 := by rw [h0, Nat.sub_zero, Nat.mod_self]
    rw [this, Nat.add_zero]
    exact Nat.dvd_of_mod_eq_zero h0
  · have hlt : lb % T < T := Nat.mod_lt _ hT
    have heq : (T - lb % T) % T = T - lb % T := Nat.mod_eq_of_lt (by omega)
    rw [heq]
    refine ⟨lb / T + 1, ?_⟩
    have hdm := Nat.div_add_mod lb T
    have hsm : T * (lb / T + 1) = T * (lb / T) + T := by ring
    omega

theorem nspb_getD_eq (cfg : SamplerCfg) (i : Nat) (h : i < (createBuckets cfg).1.length) :
    (createBuckets cfg).2.1.getD i 0 =
      ((createBuckets cfg).1.getD i []).length +
        (cfg.numReplicas * cfg.batchSize -
          ((createBuckets cfg).1.getD i []).length % (cfg.numReplicas * cfg.batchSize)) %
          (cfg.numReplicas * cfg.batchSize) := by
  rw [createBuckets_nspb]
  exact getD_map_of_lt _ _ i 0 [] h

theorem slice_count (p num rank : Nat) (h : num ∣ p) (hnum : 0 < num)
    (hr : rank < num) (hp : 1 ≤ p) :
    (p - rank + num - 1) / num = p / num := by
  obtain ⟨c, rfl⟩ := h
  have hc : 1 ≤ c := by
    cases c with
    | zero => simp at hp
    | succ j => omega
  have hA : num ≤ num * c := Nat.le_mul_of_pos_right num hc
  have hrw : num * c - rank + num - 1 = (num - 1 - rank) + num * c := by omega
  rw [hrw, Nat.add_mul_div_left _ c hnum, Nat.div_eq_of_lt (by omega),
    Nat.mul_div_cancel_left c hnum, Nat.zero_add]

theorem sliceStride_length (l : List Nat) (start step : Nat) :
    (sliceStride l start step).length = (l.length - start + step - 1) / step := by
  simp [sliceStride]

theorem bucketBatches_length (bs : Nat) (bucket sub : List Nat) :
    (bucketBatches bs bucket sub).length = sub.length / bs := by
  simp [bucketBatches]

theorem bucketBatches_mem_len (bs : Nat) (bucket sub : List Nat) (hbs : 0 < bs)
    (b : List Nat) (hb : b ∈ bucketBatches bs bucket sub) : b.length = bs := by
  simp only [bucketBatches, List.mem_map, List.mem_range] at hb
  obtain ⟨j, hj, rfl⟩ := hb
  have hj1 : j + 1 ≤ sub.length / bs := hj
  have hj' := (Nat.le_div_iff_mul_le hbs).mp hj1
  have hsm : (j + 1) * bs = j * bs + bs := by ring
  simp only [List.length_map, List.length_take, List.length_drop]
  omega

theorem map_getD_range {α β : Type} (l : List α) (f : α → β) (d : α) :
    (List.range l.length).map (fun i => f (l.getD i d)) = l.map f := by
  induction l with
  | nil => rfl
  | cons a t ih =>
    rw [List.length_cons, List.range_succ_eq_map, List.map_cons, List.map_map, List.map_cons]
    simp only [List.getD_cons_zero]
    have hfn : ∀ i ∈ List.range t.length,
        ((fun i => f ((a :: t).getD i d)) ∘ Nat.succ) i = f (t.getD i d) := fun i _ => rfl
    rw [List.map_congr_left hfn, ih]

theorem sum_map_div (l : List Nat) (T : Nat) (h : ∀ x ∈ l, T ∣ x) :
    (l.map (fun x => x / T)).sum * T = l.sum := by
  induction l with
  | nil => simp
  | cons a t ih =>
    simp only [List.map_cons, List.sum_cons, Nat.add_mul]
    rw [Nat.div_mul_cancel (h a (List.mem_cons_self a t)),
      ih (fun x hx => h x (List.mem_cons_of_mem a hx))]

theorem iterBatchesWith_def (cfg : SamplerCfg) (g0 : Nat) :
    iterBatchesWith cfg g0 =
      if cfg.shuffle then
        (randperm (rawBatches cfg (createBuckets cfg).1 (createBuckets cfg).2.1
            (bucketPerms cfg (createBuckets cfg).1 g0).1).length
          (bucketPerms cfg (createBuckets cfg).1 g0).2).1.map
          (fun i => (rawBatches cfg (createBuckets cfg).1 (createBuckets cfg).2.1
            (bucketPerms cfg (createBuckets cfg).1 g0).1).getD i [])
      else rawBatches cfg (createBuckets cfg).1 (createBuckets cfg).2.1
        (bucketPerms cfg (createBuckets cfg).1 g0).1 := rfl

theorem rawBatches_facts (cfg : SamplerCfg) (indices : List (List Nat))
    (hb : 0 < cfg.batchSize) (hn : 0 < cfg.numReplicas) (hr : cfg.rank < cfg.numReplicas)
    (hne : ∀ b ∈ (createBuckets cfg).1, b ≠ [])
    (hidx : ∀ i, i < (createBuckets cfg).1.length →
      (indices.getD i []).length = ((createBuckets cfg).1.getD i []).length) :
    (rawBatches cfg (createBuckets cfg).1 (createBuckets cfg).2.1 indices).length *
        cfg.batchSize = (createBuckets cfg).2.1.sum / cfg.numReplicas
    ∧ ∀ b ∈ rawBatches cfg (createBuckets cfg).1 (createBuckets cfg).2.1 indices,
        b.length = cfg.batchSize := by
  have hT : 0 < cfg.numReplicas * cfg.batchSize := Nat.mul_pos hn hb
  have hkey : ∀ i, i < (createBuckets cfg).1.length →
      (bucketBatches cfg.batchSize ((createBuckets cfg).1.getD i [])
        (sliceStride
          (extendCyc (indices.getD i []) ((createBuckets cfg).1.getD i []).length
            ((createBuckets cfg).2.1.getD i 0))
          cfg.rank cfg.numReplicas)).length
      = (createBuckets cfg).2.1.getD i 0 / (cfg.numReplicas * cfg.batchSize) := by
    intro i hi
    have hlb : 1 ≤ ((createBuckets cfg).1.getD i []).length :=
      List.length_pos.mpr (hne _ (getD_mem_of_lt (createBuckets cfg).1 i [] hi))
    have hp := nspb_getD_eq cfg i hi
    have hdvdT : cfg.numReplicas * cfg.batchSize ∣ (createBuckets cfg).2.1.getD i 0 := by
      rw [hp]
      exact pad_dvd _ _ hT
    have hlble : ((createBuckets cfg).1.getD i []).length ≤ (createBuckets cfg).2.1.getD i 0 := by
      rw [hp]
      omega
    have hp1 : 1 ≤ (createBuckets cfg).2.1.getD i 0 := le_trans hlb hlble
    have hdvdnum : cfg.numReplicas ∣ (createBuckets cfg).2.1.getD i 0 :=
      dvd_trans ⟨cfg.batchSize, rfl⟩ hdvdT
    have hext : (extendCyc (indices.getD i []) ((createBuckets cfg).1.getD i []).length
        ((createBuckets cfg).2.1.getD i 0)).length = (createBuckets cfg).2.1.getD i 0 :=
      extendCyc_length _ _ _ (hidx i hi) hlb hlble
    rw [bucketBatches_length, sliceStride_length, hext,
      slice_count _ cfg.numReplicas cfg.rank hdvdnum hn hr hp1, Nat.div_div_eq_div_mul]
  constructor
  · simp only [rawBatches]
    rw [List.length_flatten, List.map_map]
    have hcong : ∀ i ∈ List.range (createBuckets cfg).1.length,
        (List.length ∘ fun i =>
          bucketBatches cfg.batchSize ((createBuckets cfg).1.getD i [])
            (sliceStride
              (extendCyc (indices.getD i []) ((createBuckets cfg).1.getD i []).length
                ((createBuckets cfg).2.1.getD i 0))
              cfg.rank cfg.numReplicas)) i
        = (fun i => (createBuckets cfg).2.1.getD i 0 / (cfg.numReplicas * cfg.batchSize)) i :=
      fun i hi => hkey i (List.mem_range.mp hi)
    rw [List.map_congr_left hcong]
    have hBN : (createBuckets cfg).1.length = (createBuckets cfg).2.1.length := by
      rw [createBuckets_nspb, List.length_map]
    rw [hBN,
      map_getD_range (createBuckets cfg).2.1 (fun x => x / (cfg.numReplicas * cfg.batchSize)) 0]
    have hdvd_all : ∀ x ∈ (createBuckets cfg).2.1, cfg.numReplicas * cfg.batchSize ∣ x := by
      intro x hx
      rw [createBuckets_nspb] at hx
      obtain ⟨bk, _, rfl⟩ := List.mem_map.mp hx
      exact pad_dvd _ _ hT
    rw [← sum_map_div (createBuckets cfg).2.1 (cfg.numReplicas * cfg.batchSize) hdvd_all]
    have hring : ((createBuckets cfg).2.1.map
          (fun x => x / (cfg.numReplicas * cfg.batchSize))).sum *
          (cfg.numReplicas * cfg.batchSize)
        = cfg.numReplicas *
          (((createBuckets cfg).2.1.map
            (fun x => x / (cfg.numReplicas * cfg.batchSize))).sum * cfg.batchSize) := by
      ring
    rw [hring, Nat.mul_div_cancel_left _ hn]
  · intro b hbmem
    simp only [rawBatches] at hbmem
    obtain ⟨l', hl', hbl⟩ := List.mem_flatten.mp hbmem
    obtain ⟨i, _, rfl⟩ := List.mem_map.mp hl'
    exact bucketBatches_mem_len _ _ _ hb b hbl

/-- C2: with a positive batch size, valid rank and every surviving bucket
non-empty, the batch list of `__iter__` satisfies
`len(batches) * batch_size == sum(padded_counts) // num_replicas`
(the assertion at the end of `__iter__`), and every batch has exactly
`batch_size` elements — at every epoch. -/
theorem iter_batch_counts (cfg : SamplerCfg) (epoch : Nat)
    (hb : 0 < cfg.batchSize) (hn : 0 < cfg.numReplicas) (hr : cfg.rank < cfg.numReplicas)
    (hne : ∀ b ∈ (createBuckets cfg).1, b ≠ []) :
    (iterBatches cfg epoch).length * cfg.batchSize = numSamples cfg
    ∧ ∀ b ∈ iterBatches cfg epoch, b.length = cfg.batchSize := by
  have hidx : ∀ i, i < (createBuckets cfg).1.length →
      (((bucketPerms cfg (createBuckets cfg).1 (mkGen epoch)).1).getD i []).length =
        ((createBuckets cfg).1.getD i []).length :=
    fun i hi => bucketPerms_getD_length cfg (createBuckets cfg).1 (mkGen epoch) i hi
  have hraw := rawBatches_facts cfg (bucketPerms cfg (createBuckets cfg).1 (mkGen epoch)).1
    hb hn hr hne hidx
  have hiter : iterBatches cfg epoch = iterBatchesWith cfg (mkGen epoch) := rfl
  simp only [numSamples, totalSize]
  rw [hiter, iterBatchesWith_def]
  by_cases hs : cfg.shuffle
  · rw [if_pos hs]
    constructor
    · rw [List.length_map, randperm_length]
      exact hraw.1
    · intro b hbmem
      obtain ⟨k, hk, rfl⟩ := List.mem_map.mp hbmem
      have hkmem : k ∈ (List.range (rawBatches cfg (createBuckets cfg).1
          (createBuckets cfg).2.1
          (bucketPerms cfg (createBuckets cfg).1 (mkGen epoch)).1).length).rotate
            ((bucketPerms cfg (createBuckets cfg).1 (mkGen epoch)).2) := by
        simpa [randperm] using hk
      have hklt : k < (rawBatches cfg (createBuckets cfg).1 (createBuckets cfg).2.1
          (bucketPerms cfg (createBuckets cfg).1 (mkGen epoch)).1).length :=
        List.mem_range.mp ((List.rotate_perm _ _).mem_iff.mp hkmem)
      exact hraw.2 _ (getD_mem_of_lt _ k [] hklt)
  · rw [if_neg hs]
    exact hraw

/-- C2 witness: `sampleCfg` (two non-empty buckets of size 2, batch size 2,
one replica) at epoch 3: 2 batches of 2 and `num_samples = 4`. -/
theorem iter_batch_counts_witness :
    (0 < sampleCfg.batchSize ∧ 0 < sampleCfg.numReplicas
      ∧ sampleCfg.rank < sampleCfg.numReplicas
      ∧ ∀ b ∈ (createBuckets sampleCfg).1, b ≠ [])
    ∧ (iterBatches sampleCfg 3).length * sampleCfg.batchSize = numSamples sampleCfg
    ∧ (iterBatches sampleCfg 3).length = 2 ∧ numSamples sampleCfg = 4 :=
  ⟨⟨by decide, by decide, by decide, by decide⟩,
    (iter_batch_counts sampleCfg 3 (by decide) (by decide) (by decide) (by decide)).1,
    by decide, by decide⟩

/-! ### `TextAudioCollate.__call__` -/

structure Sample where
  text : List Int
  tone : List Int
  f0 : List Int
  spec : List (List Int)
  wav : List Int

instance : Inhabited Sample := ⟨⟨[], [], [], [], []⟩⟩

/-- `spec.size(1)`: the time dimension of the 2-D spectral feature, whose
rows (one per feature bin) all have the time length. -/
def specTime (s : Sample) : Nat := (s.spec.headD []).length

/-- Copying a row's true-length prefix into a zero-initialised buffer of
width `n`. -/
def padTo (n : Nat) (l : List Int) : List Int := l ++ List.replicate (n - l.length) 0

/-- `max([...])` over a per-sample field length. -/
def maxLenBy (f : Sample → Nat) (batch : List Sample) : Nat :=
  (batch.map f).foldr max 0

/-- Stable insertion of index `i` into a list of indices kept in descending
key order: `i` goes after every index of key ≥ its own. -/
def insertDesc (key : Nat → Nat) (i : Nat) : List Nat → List Nat
  | [] => [i]
  | j :: rest => if key i ≤ key j then j :: insertDesc key i rest else i :: j :: rest

/-- `torch.sort(lengths, descending=True).indices`: the permutation of
`range n` that lists indices in descending key order. -/
def sortIdxDesc (key : Nat → Nat) (n : Nat) : List Nat :=
  (List.range n).foldl (fun acc i => insertDesc key i acc) []

/-- The sort key of `TextAudioCollate.__call__`: `x[3].size(1)`. -/
def sortKey (batch : List Sample) : Nat → Nat :=
  fun k => specTime (batch.getD k default)

/-- `ids_sorted_decreasing`. -/
def sortedIds (batch : List Sample) : List Nat :=
  sortIdxDesc (sortKey batch) batch.length

structure CollateOut where
  textPadded : List (List Int)
  textLengths : List Nat
  tonePadded : List (List Int)
  toneLengths : List Nat
  f0Padded : List (List Int)
  f0Lengths : List Nat
  specPadded : List (List (List Int))
  specLengths : List Nat
  wavPadded : List (List Int)
  wavLengths : List Nat

/-- `TextAudioCollate.__call__`: row `i` of every output tensor is the
zero-padded copy of batch element `ids_sorted_decreasing[i]`, and the length
vectors record each copied row's true length.  The `spec` buffer has
`batch[0][3].size(0)` feature rows (uniform across the batch by
precondition). -/
def collate (batch : List Sample) : CollateOut :=
  let ids := sortedIds batch
  let maxText := maxLenBy (fun s => s.text.length) batch
  let maxTone := maxLenBy (fun s => s.tone.length) batch
  let maxF0 := maxLenBy (fun s => s.f0.length) batch
  let maxSpec := maxLenBy specTime batch
  let maxWav := maxLenBy (fun s => s.wav.length) batch
  let fd := (batch.headD default).spec.length
  { textPadded := ids.map (fun k => padTo maxText (batch.getD k default).text)
    textLengths := ids.map (fun k => (batch.getD k default).text.length)
    tonePadded := ids.map (fun k => padTo maxTone (batch.getD k default).tone)
    toneLengths := ids.map (fun k => (batch.getD k default).tone.length)
    f0Padded := ids.map (fun k => padTo maxF0 (batch.getD k default).f0)
    f0Lengths := ids.map (fun k => (batch.getD k default).f0.length)
    specPadded := ids.map (fun k =>
      (List.range fd).map (fun r => padTo maxSpec ((batch.getD k default).spec.getD r [])))
    specLengths := ids.map (fun k => specTime (batch.getD k default))
    wavPadded := ids.map (fun k => padTo maxWav (batch.getD k default).wav)
    wavLengths := ids.map (fun k => (batch.getD k default).wav.length) }

/-! ### `TextAudioLoader.get_audio_text_pair` -/

/-- The length-reconciliation step of `get_audio_text_pair`: the assertion
`len_text == len_tone` is modelled as returning `none` on failure; when the
text length and the spec time length differ, `text`, `tone`, `f0` are
truncated to the minimum of the two, `spec` is truncated along time, and
`wav` to `len_min * 256` samples (the fixed hop size). -/
def getAudioTextPair (text tone f0 : List Int) (spec : List (List Int)) (wav : List Int) :
    Option (List Int × List Int × List Int × List (List Int) × List Int) :=
  let lenText := text.length
  let lenTone := tone.length
  let lenSpec := (spec.headD []).length
  if lenText = lenTone then
    if lenText ≠ lenSpec then
      let lenMin := min lenText lenSpec
      let lenWav := lenMin * 256
      some (text.take lenMin, tone.take lenMin, f0.take lenMin,
        spec.map (fun row => row.take lenMin), wav.take lenWav)
    else some (text, tone, f0, spec, wav)
  else none

/-! ### Lemmas for the collator -/

theorem insertDesc_perm (key : Nat → Nat) (i : Nat) (l : List Nat) :
    List.Perm (insertDesc key i l) (i :: l) := by
  induction l with
  | nil => exact List.Perm.refl _
  | cons j rest ih =>
    simp only [insertDesc]
    by_cases hk : key i ≤ key j
    · rw [if_pos hk]
      exact (ih.cons j).trans (List.Perm.swap i j rest)
    · rw [if_neg hk]

theorem foldl_insertDesc_perm (key : Nat → Nat) :
    ∀ (xs acc : List Nat),
      List.Perm (xs.foldl (fun a i => insertDesc key i a) acc) (acc ++ xs) := by
  intro xs
  induction xs with
  | nil => intro acc; simp
  | cons x t ih =>
    intro acc
    simp only [List.foldl_cons]
    refine (ih (insertDesc key x acc)).trans ?_
    refine (((insertDesc_perm key x acc).append_right t)).trans ?_
    exact List.perm_middle.symm

theorem sortIdx_perm (key : Nat → Nat) (n : Nat) :
    List.Perm (sortIdxDesc key n) (List.range n) := by
  simpa using foldl_insertDesc_perm key (List.range n) []

theorem mem_insertDesc (key : Nat → Nat) (i x : Nat) (l : List Nat) :
    x ∈ insertDesc key i l ↔ x = i ∨ x ∈ l := by
  rw [(insertDesc_perm key i l).mem_iff, List.mem_cons]

theorem insertDesc_sorted (key : Nat → Nat) (i : Nat) (l : List Nat)
    (hs : List.Sorted (fun a b => key b ≤ key a) l) :
    List.Sorted (fun a b => key b ≤ key a) (insertDesc key i l) := by
  induction l with
  | nil => simp [insertDesc]
  | cons j rest ih =>
    rw [List.sorted_cons] at hs
    obtain ⟨hj, hrest⟩ := hs
    simp only [insertDesc]
    by_cases hk : key i ≤ key j
    · rw [if_pos hk, List.sorted_cons]
      refine ⟨fun b hbmem => ?_, ih hrest⟩
      rcases (mem_insertDesc key i b rest).mp hbmem with rfl | hbr
      · exact hk
      · exact hj b hbr
    · rw [if_neg hk, List.sorted_cons]
      refine ⟨fun b hbmem => ?_, List.sorted_cons.mpr ⟨hj, hrest⟩⟩
      rcases List.mem_cons.mp hbmem with rfl | hbr
      · omega
      · exact le_trans (hj b hbr) (by omega)

theorem foldl_insertDesc_sorted (key : Nat → Nat) :
    ∀ (xs acc : List Nat), List.Sorted (fun a b => key b ≤ key a) acc →
      List.Sorted (fun a b => key b ≤ key a)
        (xs.foldl (fun a i => insertDesc key i a) acc) := by
  intro xs
  induction xs with
  | nil => intro acc h; exact h
  | cons x t ih =>
    intro acc h
    simp only [List.foldl_cons]
    exact ih _ (insertDesc_sorted key x acc h)

theorem sortIdx_sorted (key : Nat → Nat) (n : Nat) :
    List.Sorted (fun a b => key b ≤ key a) (sortIdxDesc key n) :=
  foldl_insertDesc_sorted key (List.range n) [] List.sorted_nil

theorem sortIdx_length (key : Nat → Nat) (n : Nat) : (sortIdxDesc key n).length = n := by
  rw [(sortIdx_perm key n).length_eq, List.length_range]

theorem le_maxLenBy (f : Sample → Nat) (batch : List Sample) (s : Sample)
    (h : s ∈ batch) : f s ≤ maxLenBy f batch := by
  induction batch with
  | nil => simp at h
  | cons a t ih =>
    rcases List.mem_cons.mp h with rfl | ht
    · exact le_max_left _ _
    · exact le_trans (ih ht) (le_max_right _ _)

theorem padTo_length (n : Nat) (l : List Int) (h : l.length ≤ n) :
    (padTo n l).length = n := by
  simp only [padTo, List.length_append, List.length_replicate]
  omega

theorem getD_range_map {β : Type} (n : Nat) (f : Nat → β) (i : Nat) (d : β) (h : i < n) :
    ((List.range n).map f).getD i d = f i := by
  rw [List.getD_eq_getElem?_getD, List.getElem?_map, List.getElem?_range h]
  rfl

theorem sortedIds_length (batch : List Sample) : (sortedIds batch).length = batch.length := by
  rw [sortedIds, sortIdx_length]

theorem ids_map_getD {β : Type} (batch : List Sample) (g : Nat → β) (d : β) (i : Nat)
    (hi : i < batch.length) :
    ((sortedIds batch).map g).getD i d = g ((sortedIds batch).getD i 0) :=
  getD_map_of_lt g _ i d 0 (by rw [sortedIds_length]; exact hi)

theorem sortedIds_getD_lt (batch : List Sample) (i : Nat) (hi : i < batch.length) :
    (sortedIds batch).getD i 0 < batch.length := by
  have hmem := getD_mem_of_lt (sortedIds batch) i 0 (by rw [sortedIds_length]; exact hi)
  exact List.mem_range.mp ((sortIdx_perm (sortKey batch) batch.length).mem_iff.mp hmem)

theorem collate_textPadded (batch : List Sample) :
    (collate batch).textPadded = (sortedIds batch).map
      (fun k => padTo (maxLenBy (fun s => s.text.length) batch) (batch.getD k default).text) :=
  rfl

theorem collate_textLengths (batch : List Sample) :
    (collate batch).textLengths = (sortedIds batch).map
      (fun k => (batch.getD k default).text.length) := rfl

theorem collate_tonePadded (batch : List Sample) :
    (collate batch).tonePadded = (sortedIds batch).map
      (fun k => padTo (maxLenBy (fun s => s.tone.length) batch) (batch.getD k default).tone) :=
  rfl

theorem collate_toneLengths (batch : List Sample) :
    (collate batch).toneLengths = (sortedIds batch).map
      (fun k => (batch.getD k default).tone.length) := rfl

theorem collate_f0Padded (batch : List Sample) :
    (collate batch).f0Padded = (sortedIds batch).map
      (fun k => padTo (maxLenBy (fun s => s.f0.length) batch) (batch.getD k default).f0) :=
  rfl

theorem collate_f0Lengths (batch : List Sample) :
    (collate batch).f0Lengths = (sortedIds batch).map
      (fun k => (batch.getD k default).f0.length) := rfl

theorem collate_wavPadded (batch : List Sample) :
    (collate batch).wavPadded = (sortedIds batch).map
      (fun k => padTo (maxLenBy (fun s => s.wav.length) batch) (batch.getD k default).wav) :=
  rfl

theorem collate_wavLengths (batch : List Sample) :
    (collate batch).wavLengths = (sortedIds batch).map
      (fun k => (batch.getD k default).wav.length) := rfl

theorem collate_specPadded (batch : List Sample) :
    (collate batch).specPadded = (sortedIds batch).map
      (fun k => (List.range (batch.headD default).spec.length).map
        (fun r => padTo (maxLenBy specTime batch) ((batch.getD k default).spec.getD r []))) :=
  rfl

theorem collate_specLengths (batch : List Sample) :
    (collate batch).specLengths = (sortedIds batch).map (sortKey batch) := rfl

/-- C7: for a non-empty batch the collator emits rows in descending
spec-time order (a permutation of the batch), zero-pads every field to that
field's maximum length over the batch, and records each sample's true length
at its sorted position. -/
theorem collate_correct (batch : List Sample) (_hb : batch ≠ [])
    (hrect : ∀ s ∈ batch, ∀ row ∈ s.spec, row.length = specTime s) :
    List.Perm (sortedIds batch) (List.range batch.length)
    ∧ List.Sorted (fun a b => b ≤ a) (collate batch).specLengths
    ∧ (collate batch).textPadded.length = batch.length
    ∧ (collate batch).specLengths.length = batch.length
    ∧ ∀ i, i < batch.length →
        (sortedIds batch).getD i 0 < batch.length
        ∧ (collate batch).textPadded.getD i [] =
            padTo (maxLenBy (fun s => s.text.length) batch)
              (batch.getD ((sortedIds batch).getD i 0) default).text
        ∧ ((collate batch).textPadded.getD i []).length =
            maxLenBy (fun s => s.text.length) batch
        ∧ (collate batch).textLengths.getD i 0 =
            (batch.getD ((sortedIds batch).getD i 0) default).text.length
        ∧ (collate batch).tonePadded.getD i [] =
            padTo (maxLenBy (fun s => s.tone.length) batch)
              (batch.getD ((sortedIds batch).getD i 0) default).tone
        ∧ ((collate batch).tonePadded.getD i []).length =
            maxLenBy (fun s => s.tone.length) batch
        ∧ (collate batch).toneLengths.getD i 0 =
            (batch.getD ((sortedIds batch).getD i 0) default).tone.length
        ∧ (collate batch).f0Padded.getD i [] =
            padTo (maxLenBy (fun s => s.f0.length) batch)
              (batch.getD ((sortedIds batch).getD i 0) default).f0
        ∧ ((collate batch).f0Padded.getD i []).length =
            maxLenBy (fun s => s.f0.length) batch
        ∧ (collate batch).f0Lengths.getD i 0 =
            (batch.getD ((sortedIds batch).getD i 0) default).f0.length
        ∧ (collate batch).wavPadded.getD i [] =
            padTo (maxLenBy (fun s => s.wav.length) batch)
              (batch.getD ((sortedIds batch).getD i 0) default).wav
        ∧ ((collate batch).wavPadded.getD i []).length =
            maxLenBy (fun s => s.wav.length) batch
        ∧ (collate batch).wavLengths.getD i 0 =
            (batch.getD ((sortedIds batch).getD i 0) default).wav.length
        ∧ (collate batch).specLengths.getD i 0 =
            specTime (batch.getD ((sortedIds batch).getD i 0) default)
        ∧ ((collate batch).specPadded.getD i []).length =
            (batch.headD default).spec.length
        ∧ ∀ r, r < (batch.headD default).spec.length →
            ((collate batch).specPadded.getD i []).getD r [] =
              padTo (maxLenBy specTime batch)
                ((batch.getD ((sortedIds batch).getD i 0) default).spec.getD r [])
            ∧ (((collate batch).specPadded.getD i []).getD r []).length =
                maxLenBy specTime batch := by
  refine ⟨sortIdx_perm (sortKey batch) batch.length, ?_, ?_, ?_, ?_⟩
  · rw [collate_specLengths]
    exact List.Pairwise.map _ (fun a b h => h) (sortIdx_sorted (sortKey batch) batch.length)
  · rw [collate_textPadded, List.length_map, sortedIds_length]
  · rw [collate_specLengths, List.length_map, sortedIds_length]
  · intro i hi
    have hk : (sortedIds batch).getD i 0 < batch.length := sortedIds_getD_lt batch i hi
    have hsmem : batch.getD ((sortedIds batch).getD i 0) default ∈ batch :=
      getD_mem_of_lt _ _ default hk
    refine ⟨hk, ?_, ?_, ?_, ?_, ?_, ?_, ?_, ?_, ?_, ?_, ?_, ?_, ?_, ?_, ?_⟩
    · rw [collate_textPadded, ids_map_getD batch _ [] i hi]
    · rw [collate_textPadded, ids_map_getD batch _ [] i hi]
      exact padTo_length _ _ (le_maxLenBy (fun s => s.text.length) batch _ hsmem)
    · rw [collate_textLengths, ids_map_getD batch _ 0 i hi]
    · rw [collate_tonePadded, ids_map_getD batch _ [] i hi]
    · rw [collate_tonePadded, ids_map_getD batch _ [] i hi]
      exact padTo_length _ _ (le_maxLenBy (fun s => s.tone.length) batch _ hsmem)
    · rw [collate_toneLengths, ids_map_getD batch _ 0 i hi]
    · rw [collate_f0Padded, ids_map_getD batch _ [] i hi]
    · rw [collate_f0Padded, ids_map_getD batch _ [] i hi]
      exact padTo_length _ _ (le_maxLenBy (fun s => s.f0.length) batch _ hsmem)
    · rw [collate_f0Lengths, ids_map_getD batch _ 0 i hi]
    · rw [collate_wavPadded, ids_map_getD batch _ [] i hi]
    · rw [collate_wavPadded, ids_map_getD batch _ [] i hi]
      exact padTo_length _ _ (le_maxLenBy (fun s => s.wav.length) batch _ hsmem)
    · rw [collate_wavLengths, ids_map_getD batch _ 0 i hi]
    · rw [collate_specLengths, ids_map_getD batch _ 0 i hi]
      rfl
    · rw [collate_specPadded, ids_map_getD batch _ [] i hi, List.length_map,
        List.length_range]
    · intro r hr
      constructor
      · rw [collate_specPadded, ids_map_getD batch _ [] i hi, getD_range_map _ _ r [] hr]
      · rw [collate_specPadded, ids_map_getD batch _ [] i hi, getD_range_map _ _ r [] hr]
        by_cases hrlen : r < (batch.getD ((sortedIds batch).getD i 0) default).spec.length
        · have hrow := hrect _ hsmem _
            (getD_mem_of_lt (batch.getD ((sortedIds batch).getD i 0) default).spec r [] hrlen)
          refine padTo_length _ _ ?_
          rw [hrow]
          exact le_maxLenBy specTime batch _ hsmem
        · rw [List.getD_eq_default _ _ (by omega)]
          simp [padTo]

/-- The concrete batch of C7: three samples with `text` lengths [5, 3, 7] and
`spec` time lengths [5, 3, 7]. -/
def c7batch : List Sample :=
  [ { text := [1, 1, 1, 1, 1], tone := [2, 2, 2, 2, 2], f0 := [3, 3, 3, 3, 3],
      spec := [[4, 4, 4, 4, 4]], wav := [5, 5, 5, 5, 5] },
    { text := [1, 1, 1], tone := [2, 2, 2], f0 := [3, 3, 3],
      spec := [[4, 4, 4]], wav := [5, 5, 5] },
    { text := [1, 1, 1, 1, 1, 1, 1], tone := [2, 2, 2, 2, 2, 2, 2],
      f0 := [3, 3, 3, 3, 3, 3, 3], spec := [[4, 4, 4, 4, 4, 4, 4]],
      wav := [5, 5, 5, 5, 5, 5, 5] } ]

/-- C7 witness: on the concrete batch, `spec_lengths == [7, 5, 3]`, the sort
permutation is `[2, 0, 1]`, and `spec` is padded to time 7. -/
theorem collate_correct_witness :
    (c7batch ≠ [] ∧ ∀ s ∈ c7batch, ∀ row ∈ s.spec, row.length = specTime s)
    ∧ List.Sorted (fun a b => b ≤ a) (collate c7batch).specLengths
    ∧ (collate c7batch).specLengths = [7, 5, 3]
    ∧ sortedIds c7batch = [2, 0, 1]
    ∧ maxLenBy specTime c7batch = 7
    ∧ (collate c7batch).specPadded.getD 1 [] = [[4, 4, 4, 4, 4, 0, 0]] :=
  ⟨⟨by simp [c7batch], by decide⟩,
    (collate_correct c7batch (by simp [c7batch]) (by decide)).2.1,
    by decide, by decide, by decide, by decide⟩

/-! ### C8: truncation reconciliation in `get_audio_text_pair` -/

/-- C8: when the text length and the spec time length differ (text and tone
lengths agreeing, the other fields long enough to be aligned), the fetch
reconciles `text`, `tone`, `f0` and `spec` to the minimum of the two lengths
and truncates `wav` to that minimum times 256 samples per frame. -/
theorem reconcile_truncation (text tone f0 : List Int) (spec : List (List Int))
    (wav : List Int)
    (ht : text.length = tone.length)
    (hne : text.length ≠ (spec.headD []).length)
    (hrect : ∀ row ∈ spec, row.length = (spec.headD []).length)
    (hf0 : min text.length (spec.headD []).length ≤ f0.length)
    (hwav : min text.length (spec.headD []).length * 256 ≤ wav.length) :
    getAudioTextPair text tone f0 spec wav =
      some (text.take (min text.length (spec.headD []).length),
        tone.take (min text.length (spec.headD []).length),
        f0.take (min text.length (spec.headD []).length),
        spec.map (fun row => row.take (min text.length (spec.headD []).length)),
        wav.take (min text.length (spec.headD []).length * 256))
    ∧ (text.take (min text.length (spec.headD []).length)).length =
        min text.length (spec.headD []).length
    ∧ (tone.take (min text.length (spec.headD []).length)).length =
        min text.length (spec.headD []).length
    ∧ (f0.take (min text.length (spec.headD []).length)).length =
        min text.length (spec.headD []).length
    ∧ (∀ row' ∈ spec.map (fun row => row.take (min text.length (spec.headD []).length)),
        row'.length = min text.length (spec.headD []).length)
    ∧ (wav.take (min text.length (spec.headD []).length * 256)).length =
        min text.length (spec.headD []).length * 256 := by
  refine ⟨?_, ?_, ?_, ?_, ?_, ?_⟩
  · simp only [getAudioTextPair]
    rw [if_pos ht, if_pos hne]
  · rw [List.length_take]
    omega
  · rw [List.length_take]
    omega
  · rw [List.length_take]
    omega
  · intro row' hmem
    obtain ⟨row, hrow, rfl⟩ := List.mem_map.mp hmem
    have hr := hrect row hrow
    rw [List.length_take]
    omega
  · rw [List.length_take]
    omega

def c8text : List Int := List.replicate 10 1
def c8tone : List Int := List.replicate 10 2
def c8f0 : List Int := List.replicate 12 3
def c8spec : List (List Int) := [List.replicate 12 4]
def c8wav : List Int := List.replicate 2600 5

theorem c8text_len : c8text.length = 10 := List.length_replicate 10 1
theorem c8tone_len : c8tone.length = 10 := List.length_replicate 10 2
theorem c8f0_len : c8f0.length = 12 := List.length_replicate 12 3
theorem c8specTime_len : (c8spec.headD []).length = 12 := List.length_replicate 12 4
theorem c8wav_len : c8wav.length = 2600 := List.length_replicate 2600 5

/-- C8 witness: text length 10, spec time length 12 — everything reconciled
to 10, `wav` truncated to `10 * 256 = 2560` samples. -/
theorem reconcile_truncation_witness :
    (c8text.length = c8tone.length
      ∧ c8text.length ≠ (c8spec.headD []).length
      ∧ (∀ row ∈ c8spec, row.length = (c8spec.headD []).length)
      ∧ min c8text.length (c8spec.headD []).length ≤ c8f0.length
      ∧ min c8text.length (c8spec.headD []).length * 256 ≤ c8wav.length)
    ∧ getAudioTextPair c8text c8tone c8f0 c8spec c8wav =
        some (c8text.take (min c8text.length (c8spec.headD []).length),
          c8tone.take (min c8text.length (c8spec.headD []).length),
          c8f0.take (min c8text.length (c8spec.headD []).length),
          c8spec.map (fun row => row.take (min c8text.length (c8spec.headD []).length)),
          c8wav.take (min c8text.length (c8spec.headD []).length * 256))
    ∧ min c8text.length (c8spec.headD []).length = 10
    ∧ min c8text.length (c8spec.headD []).length * 256 = 2560 :=
  ⟨⟨by rw [c8text_len, c8tone_len], by rw [c8text_len, c8specTime_len]; omega,
      by simp [c8spec], by rw [c8text_len, c8specTime_len, c8f0_len]; omega,
      by rw [c8text_len, c8specTime_len, c8wav_len]; omega⟩,
    (reconcile_truncation c8text c8tone c8f0 c8spec c8wav
      (by rw [c8text_len, c8tone_len])
      (by rw [c8text_len, c8specTime_len]; omega)
      (by simp [c8spec])
      (by rw [c8text_len, c8specTime_len, c8f0_len]; omega)
      (by rw [c8text_len, c8specTime_len, c8wav_len]; omega)).1,
    by rw [c8text_len, c8specTime_len]; omega,
    by rw [c8text_len, c8specTime_len]; omega⟩

end VISinger
